import Mathlib

/-!
Verification of the `winepath` crate: conversion between Wine virtual paths
(drive letter + backslash-separated segments) and native POSIX paths.

Native paths (Rust `std::path::Path` on Unix) are modelled as `String`s
together with a `components` function mirroring `Path::components`: pieces
are obtained by splitting on `/`; empty pieces are dropped, `.` pieces are
dropped except as the leading component of a rootless path, `..` pieces
become parent-dir components, and a leading `/` yields a root component.
Rust's `Path` equality, `strip_prefix`, and `PathBuf::push` are modelled at
the same level (`strip_prefix` compares component sequences and its returned
sub-path has exactly the remaining components; `push` is the Unix string
splice with its separator/absolute-path rules).

Filesystem access (cache construction from a WINEPREFIX directory,
canonicalization in the command-line wrapper) is I/O and is modelled
abstractly: a `DriveCache` is an arbitrary 26-slot table and the
canonicalizer is an arbitrary function parameter.
-/

/-- A parsed path component, mirroring `std::path::Component` on Unix
(the `Prefix` variant is Windows-only and cannot occur on Unix paths,
matching the `unreachable!` arm in `stringify_path`). -/
inductive Component where
  | rootDir
  | curDir
  | parentDir
  | normal (s : String)
deriving DecidableEq, Repr

/-- Helper for splitting: returns the first piece and the remaining pieces. -/
def splitAux (sep : Char) : List Char → List Char × List (List Char)
  | [] => ([], [])
  | c :: cs =>
    let r := splitAux sep cs
    if c = sep then ([], r.1 :: r.2) else (c :: r.1, r.2)

/-- Split a character list at every occurrence of `sep`.  Mirrors Rust
`str::split`: the result always has at least one piece and empty pieces
are kept. -/
def splitOnChar (sep : Char) (l : List Char) : List (List Char) :=
  (splitAux sep l).1 :: (splitAux sep l).2

/-- Turn the pieces of a `/`-split into components: empty and `.` pieces
are dropped, `..` becomes a parent-dir component, anything else is a
normal component.  Mirrors the body iteration of Rust `Components`. -/
def componentsAux : List (List Char) → List Component
  | [] => []
  | p :: ps =>
    if p = [] ∨ p = ['.'] then componentsAux ps
    else if p = ['.', '.'] then Component.parentDir :: componentsAux ps
    else Component.normal (String.mk p) :: componentsAux ps

/-- The component sequence of a native path string, mirroring Rust
`Path::components` on Unix: a leading `/` yields a root component, a
leading `.` piece of a rootless path yields a cur-dir component, and the
remaining pieces go through `componentsAux`. -/
def components (s : String) : List Component :=
  let cs := s.data
  let pieces := splitOnChar '/' cs
  if cs.head? = some '/' then Component.rootDir :: componentsAux pieces
  else
    match pieces with
    | [] => []
    | p :: ps =>
      if p = ['.'] then Component.curDir :: componentsAux ps
      else componentsAux (p :: ps)

/-- Join strings with a separator, mirroring Rust `[&str]::join`. -/
def joinSep (sep : String) : List String → String
  | [] => ""
  | [x] => x
  | x :: xs => x ++ sep ++ joinSep sep xs

/-- Character-level join, used to relate `joinSep` to `splitOnChar`. -/
def joinCharSep (sep : Char) : List (List Char) → List Char
  | [] => []
  | [x] => x
  | x :: xs => x ++ sep :: joinCharSep sep xs

/-- Model of Rust `PathBuf::push` on Unix: an absolute argument replaces
the whole path; otherwise a `/` separator is inserted exactly when the
current path is nonempty and does not already end in `/`. -/
def pathPush (self part : String) : String :=
  if part.data.head? = some '/' then part
  else if self.data = [] ∨ self.data.getLast? = some '/' then self ++ part
  else self ++ "/" ++ part

/-- Model of Rust `Path::strip_prefix root` applied to `p`: succeeds iff
`root`'s component sequence is a prefix of `p`'s, and then the returned
sub-path has exactly the remaining components (the `strip_prefix` result
is immediately consumed by `Path::components` in `stringify_path`, so the
model fuses the two). -/
def stripPrefixComponents (p root : String) : Option (List Component) :=
  if (components root).isPrefixOf (components p) then
    some ((components p).drop (components root).length)
  else none

/-- Error type of the crate. -/
inductive WinePathError where
  | PrefixNotFound
  | NoDrive
deriving DecidableEq, Repr

/-- Rust `drive_to_index`: the slot index of a drive letter.  The
`assert!(drive.is_ascii_alphabetic())` is modelled by `none` (a panic);
`Char.isAlpha` is exactly the ASCII-alphabetic test. -/
def drive_to_index (drive : Char) : Option Nat :=
  if drive.isAlpha then some (drive.toLower.toNat - 0x61) else none

/-- Rust `index_to_drive`: the (lowercase) drive letter of a slot index;
the `assert!(index < 26)` is carried by the `Fin 26` argument. -/
def index_to_drive (index : Fin 26) : Char :=
  Char.ofNat (0x61 + index.val)

/-- The fixed 26-slot drive table (`[Option<PathBuf>; 26]`).  Slot
contents come from symlink resolution at construction time (I/O), so the
model takes the table itself as the state. -/
structure DriveCache where
  drives : Fin 26 → Option String

/-- Rust `DriveCache::iter`: the populated slots in ascending letter
order, with their letters regenerated from the slot indices. -/
def DriveCache.iter (dc : DriveCache) : List (Char × String) :=
  (List.finRange 26).filterMap fun i =>
    (dc.drives i).map fun path => (index_to_drive i, path)

/-- Rust `DriveCache::get`: case-insensitive slot lookup by letter.  The
outer `Option` is the `drive_to_index` assertion (a panic on non-letters);
the inner `Option` merges the bounds check and slot emptiness exactly as
the Rust `.get(index).and_then(...)` chain does. -/
def DriveCache.get (dc : DriveCache) (drive_letter : Char) : Option (Option String) :=
  (drive_to_index drive_letter).map fun i =>
    if h : i < 26 then dc.drives ⟨i, h⟩ else none

/-- The conversion configuration.  The Rust struct also stores the
WINEPREFIX directory, but no conversion function reads it, so the model
keeps only the drive cache. -/
structure WineConfig where
  drive_cache : DriveCache

/-- Rust `WineConfig::find_drive_root`: scan the populated slots in
ascending letter order and return, for the first slot whose directory is a
component-prefix of `path`, the string `"<letter>:"` together with the
remaining components. -/
def WineConfig.find_drive_root (c : WineConfig) (path : String) :
    Except WinePathError (String × List Component) :=
  match c.drive_cache.iter.findSome? (fun lr =>
      (stripPrefixComponents path lr.2).map fun remaining =>
        (String.mk [lr.1, ':'], remaining)) with
  | some r => Except.ok r
  | none => Except.error WinePathError.NoDrive

/-- The text a component contributes in `stringify_path`: root becomes an
empty segment, `.`/`..` pass through, normal segments keep their text.
(The `expect("path is not utf-8")` of the normal arm cannot fire in the
model, where all segment text is already Unicode.) -/
def componentText : Component → String
  | Component.rootDir => ""
  | Component.curDir => "."
  | Component.parentDir => ".."
  | Component.normal part => part

/-- Rust `stringify_path`: render a drive string and path components
Windows-style, joined with backslashes. -/
def stringify_path (drive : String) (path : List Component) : String :=
  joinSep "\\" (drive :: path.map componentText)

/-- Rust `WineConfig::to_wine_path_inner`. -/
def WineConfig.to_wine_path_inner (c : WineConfig) (path : String) :
    Except WinePathError String :=
  (c.find_drive_root path).map fun rr => stringify_path rr.1 rr.2

/-- Rust `WineConfig::to_native_path_inner`.  The two `assert!`s (length
at least 2, ASCII letter then colon — byte-level checks that coincide with
the character-level pattern below) are modelled by `none` (a panic).  On a
mapped letter the backslash-split segments of the remainder are pushed
onto the slot's directory in order. -/
def WineConfig.to_native_path_inner (c : WineConfig) (path : String) :
    Option (Except WinePathError String) :=
  match path.data with
  | l :: ':' :: rest =>
    if l.isAlpha then
      match c.drive_cache.get l with
      | some (some native_root) =>
        some (Except.ok
          (((splitOnChar '\\' rest).map fun p => String.mk p).foldl pathPush native_root))
      | some none => some (Except.error WinePathError.NoDrive)
      | none => none
    else none
  | _ => none

/-- The shape precondition of `to_native_path_inner`: at least two
characters, an ASCII letter first and a colon second. -/
def wine_path_shape_ok (path : String) : Bool :=
  match path.data with
  | l :: ':' :: _ => l.isAlpha
  | _ => false

/-- The mode selector of the `winepath` example binary. -/
inductive CliAction where
  | ToUnix
  | ToWindows
deriving DecidableEq, Repr

/-- Argument parsing of the example binary's `main` (the list is the
user-supplied arguments, `argv[1..]`): a missing path argument panics
(`none`); `-u`/`-w` select the action and take the next argument as the
path; any other first argument is the path, with the default action. -/
def parseArgs : List String → Option (CliAction × String)
  | [] => none
  | arg :: rest =>
    if arg = "-u" then rest.head?.map fun p => (CliAction.ToUnix, p)
    else if arg = "-w" then rest.head?.map fun p => (CliAction.ToWindows, p)
    else some (CliAction.ToUnix, arg)

/-- What the example binary prints in the `ToUnix` branch:
`to_native_path(path).unwrap()` (an error or assertion is a panic, `none`;
`to_string_lossy` is the identity on the model's Unicode strings). -/
def printedNative (c : WineConfig) (p : String) : Option String :=
  match c.to_native_path_inner p with
  | some (Except.ok out) => some out
  | _ => none

/-- What the example binary prints in the `ToWindows` branch:
`to_wine_path(path).unwrap()` (an error is a panic, `none`). -/
def printedWine (c : WineConfig) (p : String) : Option String :=
  match c.to_wine_path_inner p with
  | Except.ok out => some out
  | Except.error _ => none

/-- The example binary's `main`: parse the arguments, then convert.  The
`std::fs::canonicalize` call in the `ToWindows` branch is I/O, modelled by
the function parameter `canon` (assumed to succeed). -/
def mainModel (c : WineConfig) (canon : String → String) (args : List String) :
    Option String :=
  match parseArgs args with
  | none => none
  | some (CliAction.ToUnix, p) => printedNative c p
  | some (CliAction.ToWindows, p) => printedWine c (canon p)

/-- A one-drive configuration: `c` mapped to `/pfx/drive_c`. -/
def cfgC : WineConfig :=
  ⟨⟨fun i => if i.val = 2 then some "/pfx/drive_c" else none⟩⟩

/-- The deliberately nested configuration of the spec: `c` mapped to
`/home/u/.wine/drive_c` and `d` to `/home/u/.wine/drive_c/nested`. -/
def cfgNested : WineConfig :=
  ⟨⟨fun i =>
    if i.val = 2 then some "/home/u/.wine/drive_c"
    else if i.val = 3 then some "/home/u/.wine/drive_c/nested"
    else none⟩⟩

/-- The configuration of the spec's segment-construction example: `c`
mapped to `/home/u/.wine/drive_c`. -/
def cfgHome : WineConfig :=
  ⟨⟨fun i => if i.val = 2 then some "/home/u/.wine/drive_c" else none⟩⟩

/-- Wine's standard root mapping: `z` mapped to the filesystem root `/`. -/
def cfgRootZ : WineConfig :=
  ⟨⟨fun i => if i.val = 25 then some "/" else none⟩⟩

/-! ### Lemmas about splitting and joining -/

theorem splitOnChar_eq (sep : Char) (l : List Char) :
    splitOnChar sep l = (splitAux sep l).1 :: (splitAux sep l).2 := rfl

theorem splitOnChar_nil (sep : Char) : splitOnChar sep [] = [[]] := rfl

theorem splitOnChar_cons_self (sep : Char) (cs : List Char) :
    splitOnChar sep (sep :: cs) = [] :: splitOnChar sep cs := by
  simp [splitOnChar, splitAux]

theorem splitOnChar_ne_nil (sep : Char) (l : List Char) : splitOnChar sep l ≠ [] := by
  simp [splitOnChar]

theorem splitAux_append_sep (sep : Char) (a b : List Char) :
    splitAux sep (a ++ sep :: b) =
      ((splitAux sep a).1, (splitAux sep a).2 ++ splitOnChar sep b) := by
  induction a with
  | nil => simp [splitAux, splitOnChar]
  | cons c cs ih =>
    by_cases hc : c = sep <;> simp [splitAux, hc, ih]

theorem splitOnChar_append_sep (sep : Char) (a b : List Char) :
    splitOnChar sep (a ++ sep :: b) = splitOnChar sep a ++ splitOnChar sep b := by
  simp [splitOnChar_eq, splitAux_append_sep]

theorem splitAux_of_not_mem {sep : Char} {l : List Char} (h : sep ∉ l) :
    splitAux sep l = (l, []) := by
  induction l with
  | nil => rfl
  | cons c cs ih =>
    simp only [List.mem_cons, not_or] at h
    simp [splitAux, Ne.symm h.1, ih h.2]

theorem splitOnChar_of_not_mem {sep : Char} {l : List Char} (h : sep ∉ l) :
    splitOnChar sep l = [l] := by
  simp [splitOnChar, splitAux_of_not_mem h]

theorem not_mem_of_mem_splitOnChar {sep : Char} :
    ∀ {l p : List Char}, p ∈ splitOnChar sep l → sep ∉ p := by
  intro l
  induction l with
  | nil =>
    intro p hp
    simp [splitOnChar, splitAux] at hp
    simp [hp]
  | cons c cs ih =>
    intro p hp
    by_cases hc : c = sep
    · subst hc
      rw [splitOnChar_cons_self] at hp
      rcases List.mem_cons.mp hp with h | h
      · simp [h]
      · exact ih h
    · rw [splitOnChar_eq, splitAux] at hp
      simp only [hc, if_false, ite_false] at hp
      rcases List.mem_cons.mp hp with h | h
      · subst h
        intro hmem
        rcases List.mem_cons.mp hmem with h' | h'
        · exact hc h'.symm
        · exact ih (by rw [splitOnChar_eq]; exact List.mem_cons_self _ _) h'
      · exact ih (by rw [splitOnChar_eq]; exact List.mem_cons_of_mem _ h)

theorem splitOnChar_joinCharSep (sep : Char) :
    ∀ (xs : List (List Char)), xs ≠ [] → (∀ x ∈ xs, sep ∉ x) →
      splitOnChar sep (joinCharSep sep xs) = xs := by
  intro xs
  induction xs with
  | nil => intro h; exact absurd rfl h
  | cons x xs ih =>
    intro _ hx
    cases xs with
    | nil =>
      simp only [joinCharSep]
      exact splitOnChar_of_not_mem (hx x (List.mem_cons_self _ _))
    | cons y ys =>
      have : joinCharSep sep (x :: y :: ys) = x ++ sep :: joinCharSep sep (y :: ys) := rfl
      rw [this, splitOnChar_append_sep,
        splitOnChar_of_not_mem (hx x (List.mem_cons_self _ _)),
        ih (by simp) (fun z hz => hx z (List.mem_cons_of_mem _ hz))]
      rfl

theorem joinSep_data (sep : String) (c : Char) (hc : sep.data = [c]) :
    ∀ xs : List String, (joinSep sep xs).data = joinCharSep c (xs.map String.data) := by
  intro xs
  induction xs with
  | nil => rfl
  | cons x xs ih =>
    cases xs with
    | nil => rfl
    | cons y ys =>
      have h1 : joinSep sep (x :: y :: ys) = x ++ sep ++ joinSep sep (y :: ys) := rfl
      have h2 : joinCharSep c ((x :: y :: ys).map String.data) =
          x.data ++ c :: joinCharSep c ((y :: ys).map String.data) := rfl
      rw [h1, h2, String.data_append, String.data_append, hc, ih]
      simp

theorem joinSep_cons (sep x : String) (xs : List String) :
    ∃ t : String, joinSep sep (x :: xs) = x ++ t := by
  cases xs with
  | nil =>
    exact ⟨"", by apply String.ext; simp [joinSep]⟩
  | cons y ys =>
    exact ⟨sep ++ joinSep sep (y :: ys), by apply String.ext; simp [joinSep]⟩

/-! ### Lemmas about componentsAux and components -/

theorem componentsAux_append (ps qs : List (List Char)) :
    componentsAux (ps ++ qs) = componentsAux ps ++ componentsAux qs := by
  induction ps with
  | nil => simp [componentsAux]
  | cons p ps ih =>
    by_cases h1 : p = [] ∨ p = ['.']
    · simp [componentsAux, h1, ih]
    · by_cases h2 : p = ['.', '.'] <;> simp [componentsAux, h1, h2, ih]

theorem mem_componentsAux {c : Component} :
    ∀ {ps : List (List Char)}, c ∈ componentsAux ps →
      c = Component.parentDir ∨
        ∃ p, p ∈ ps ∧ c = Component.normal (String.mk p) ∧
          p ≠ [] ∧ p ≠ ['.'] ∧ p ≠ ['.', '.'] := by
  intro ps
  induction ps with
  | nil => intro h; simp [componentsAux] at h
  | cons p ps ih =>
    intro h
    by_cases h1 : p = [] ∨ p = ['.']
    · rw [show componentsAux (p :: ps) = componentsAux ps by simp [componentsAux, h1]] at h
      rcases ih h with h' | ⟨q, hq, h'⟩
      · exact Or.inl h'
      · exact Or.inr ⟨q, List.mem_cons_of_mem _ hq, h'⟩
    · by_cases h2 : p = ['.', '.']
      · rw [show componentsAux (p :: ps) = Component.parentDir :: componentsAux ps by
          simp [componentsAux, h1, h2]] at h
        rcases List.mem_cons.mp h with h' | h'
        · exact Or.inl h'
        · rcases ih h' with h'' | ⟨q, hq, h''⟩
          · exact Or.inl h''
          · exact Or.inr ⟨q, List.mem_cons_of_mem _ hq, h''⟩
      · rw [show componentsAux (p :: ps) =
            Component.normal (String.mk p) :: componentsAux ps by
          simp [componentsAux, h1, h2]] at h
        rcases List.mem_cons.mp h with h' | h'
        · push_neg at h1
          exact Or.inr ⟨p, List.mem_cons_self _ _, h', h1.1, h1.2, h2⟩
        · rcases ih h' with h'' | ⟨q, hq, h''⟩
          · exact Or.inl h''
          · exact Or.inr ⟨q, List.mem_cons_of_mem _ hq, h''⟩

theorem rootDir_not_mem_componentsAux {ps : List (List Char)} :
    Component.rootDir ∉ componentsAux ps := by
  intro h
  rcases mem_componentsAux h with h' | ⟨p, _, h', _⟩ <;> exact Component.noConfusion h'

theorem curDir_not_mem_componentsAux {ps : List (List Char)} :
    Component.curDir ∉ componentsAux ps := by
  intro h
  rcases mem_componentsAux h with h' | ⟨p, _, h', _⟩ <;> exact Component.noConfusion h'

theorem components_of_rooted {s : String} (h : s.data.head? = some '/') :
    components s = Component.rootDir :: componentsAux (splitOnChar '/' s.data) := by
  simp [components, h]

theorem mk_data (s : String) : String.mk s.data = s := rfl

theorem data_mk (l : List Char) : (String.mk l).data = l := rfl

theorem componentsAux_cons_nil (ps : List (List Char)) :
    componentsAux ([] :: ps) = componentsAux ps := by
  simp [componentsAux]

theorem components_mk_append (t x : List Char) (ht : t ≠ []) :
    components (String.mk (t ++ '/' :: x)) =
      components (String.mk t) ++ componentsAux (splitOnChar '/' x) := by
  obtain ⟨c, t', rfl⟩ : ∃ c t', t = c :: t' := by
    cases t with
    | nil => exact absurd rfl ht
    | cons c t' => exact ⟨c, t', rfl⟩
  by_cases hc : c = '/'
  · subst hc
    rw [show ((('/' :: t') ++ '/' :: x) : List Char) = '/' :: (t' ++ '/' :: x) by simp]
    rw [components_of_rooted (s := String.mk ('/' :: (t' ++ '/' :: x))) rfl,
      components_of_rooted (s := String.mk ('/' :: t')) rfl]
    rw [data_mk, data_mk, splitOnChar_cons_self, splitOnChar_cons_self,
      splitOnChar_append_sep, componentsAux_cons_nil, componentsAux_cons_nil,
      componentsAux_append]
    simp
  · obtain ⟨p, ps, hsplit⟩ : ∃ p ps, splitOnChar '/' (c :: t') = p :: ps :=
      ⟨_, _, splitOnChar_eq _ _⟩
    have hph : ∀ y, splitOnChar '/' ((c :: t') ++ '/' :: y) = p :: (ps ++ splitOnChar '/' y) := by
      intro y
      rw [splitOnChar_append_sep, hsplit]
      rfl
    have hne : ¬ (((c :: t') ++ '/' :: x : List Char).head? = some '/') := by
      simp [hc]
    have hne' : ¬ ((c :: t' : List Char).head? = some '/') := by simp [hc]
    show components (String.mk ((c :: t') ++ '/' :: x)) = _
    rw [components, components]
    simp only [mk_data, hne, hne', if_false, hph x, hsplit, ite_false]
    by_cases hp : p = ['.']
    · simp [hp, componentsAux_append]
    · simp only [hp, ite_false]
      rw [show (p :: (ps ++ splitOnChar '/' x)) = (p :: ps) ++ splitOnChar '/' x by simp,
        componentsAux_append]

theorem components_pathPush_empty (q : String) :
    components (pathPush q "") = components q := by
  rw [pathPush]
  simp only [show ("" : String).data.head? = none by rfl]
  by_cases h : q.data = [] ∨ q.data.getLast? = some '/'
  · rw [if_neg (by simp), if_pos h, show q ++ "" = q from String.ext (by simp)]
  · rw [if_neg (by simp), if_neg h]
    push_neg at h
    rw [show q ++ "/" ++ "" = String.mk (q.data ++ '/' :: []) from String.ext (by simp),
      components_mk_append _ _ h.1, mk_data]
    simp [splitOnChar, splitAux, componentsAux]

theorem pathPush_empty_data_ne_nil {q : String} (hq : q.data ≠ []) :
    (pathPush q "").data ≠ [] := by
  rw [pathPush]
  by_cases h : q.data = [] ∨ q.data.getLast? = some '/'
  · rw [if_neg (by simp), if_pos h]
    simpa using hq
  · rw [if_neg (by simp), if_neg h]
    simp

theorem pathPush_empty_sep (q : String) :
    (pathPush q "").data = [] ∨ (pathPush q "").data.getLast? = some '/' := by
  rw [pathPush]
  by_cases h : q.data = [] ∨ q.data.getLast? = some '/'
  · rw [if_neg (by simp), if_pos h]
    rcases h with h | h
    · exact Or.inl (by simp [h])
    · exact Or.inr (by simpa using h)
  · rw [if_neg (by simp), if_neg h]
    exact Or.inr (by simp)

theorem components_pathPush_seg (q seg : String) (hq : q.data ≠ [])
    (h1 : seg.data ≠ []) (h2 : '/' ∉ seg.data) (h3 : seg.data ≠ ['.'])
    (h4 : seg.data ≠ ['.', '.']) :
    components (pathPush q seg) = components q ++ [Component.normal seg] ∧
      (pathPush q seg).data ≠ [] := by
  have hsegsplit : componentsAux (splitOnChar '/' seg.data) = [Component.normal seg] := by
    rw [splitOnChar_of_not_mem h2]
    simp [componentsAux, h1, h3, h4, mk_data]
  have hhead : ¬ (seg.data.head? = some '/') := by
    cases hsd : seg.data with
    | nil => exact absurd hsd h1
    | cons c cs =>
      simp only [List.head?_cons, Option.some.injEq]
      intro hcontra
      exact h2 (hsd ▸ (hcontra ▸ List.mem_cons_self c cs))
  rw [pathPush, if_neg hhead]
  by_cases h : q.data = [] ∨ q.data.getLast? = some '/'
  · rcases h with h | h
    · exact absurd h hq
    · rw [if_pos (Or.inr h)]
      obtain ⟨t', ht'⟩ := List.getLast?_eq_some_iff.mp h
      constructor
      · rw [show q ++ seg = String.mk (t' ++ '/' :: seg.data) from
          String.ext (by simp [ht'])]
        by_cases htt : t' = []
        · subst htt
          have hq' : components q = [Component.rootDir] := by
            rw [components_of_rooted (by simp [ht'])]
            rw [show q.data = ['/'] by rw [ht']; rfl]
            rw [splitOnChar_cons_self, splitOnChar_nil, componentsAux_cons_nil]
            simp [componentsAux]
          rw [show (([] ++ '/' :: seg.data : List Char)) = '/' :: seg.data by simp]
          rw [components_of_rooted (s := String.mk ('/' :: seg.data)) rfl, data_mk,
            splitOnChar_cons_self, componentsAux_cons_nil, hq', hsegsplit]
          rfl
        · rw [components_mk_append _ _ htt, hsegsplit]
          have hqeq : components q = components (String.mk t') := by
            rw [show q = String.mk (t' ++ '/' :: []) from String.ext (by simp [ht']),
              components_mk_append _ _ htt]
            simp [splitOnChar, splitAux, componentsAux]
          rw [hqeq]
      · simp [h1]
  · rw [if_neg h]
    push_neg at h
    constructor
    · rw [show q ++ "/" ++ seg = String.mk (q.data ++ '/' :: seg.data) from
        String.ext (by simp)]
      rw [components_mk_append _ _ h.1, mk_data, hsegsplit]
    · simp [h1]

theorem foldl_pathPush_components :
    ∀ (segs : List String) (q : String), q.data ≠ [] →
      (∀ s ∈ segs, s.data ≠ [] ∧ '/' ∉ s.data ∧ s.data ≠ ['.'] ∧ s.data ≠ ['.', '.']) →
      components (segs.foldl pathPush q) = components q ++ segs.map Component.normal ∧
        (segs.foldl pathPush q).data ≠ [] := by
  intro segs
  induction segs with
  | nil => intro q hq _; simpa using hq
  | cons s ss ih =>
    intro q hq hall
    obtain ⟨h1, h2, h3, h4⟩ := hall s (List.mem_cons_self _ _)
    obtain ⟨hcomp, hne⟩ := components_pathPush_seg q s hq h1 h2 h3 h4
    obtain ⟨hcomp', hne'⟩ :=
      ih (pathPush q s) hne (fun x hx => hall x (List.mem_cons_of_mem _ hx))
    refine ⟨?_, hne'⟩
    rw [List.foldl_cons, hcomp', hcomp]
    simp

/-! ### String-level behaviour of repeated pushes -/

/-- The text appended to a native root by pushing the given nonempty
separator-free segments, one `/` before each. -/
def mkTailSlash : List String → String
  | [] => ""
  | s :: ss => "/" ++ s ++ mkTailSlash ss

theorem joinSep_slash_eq_mkTailSlash (s : String) (ss : List String) :
    joinSep "/" (s :: ss) = s ++ mkTailSlash ss := by
  induction ss generalizing s with
  | nil => apply String.ext; simp [joinSep, mkTailSlash]
  | cons y ys ih =>
    apply String.ext
    rw [show joinSep "/" (s :: y :: ys) = s ++ "/" ++ joinSep "/" (y :: ys) from rfl, ih y]
    simp [mkTailSlash]

theorem pathPush_eq_of_not_slash_end {q s : String} (hq : q.data ≠ [])
    (hql : q.data.getLast? ≠ some '/') (hs : s.data ≠ []) (hsl : '/' ∉ s.data) :
    pathPush q s = q ++ "/" ++ s := by
  have hhead : ¬ (s.data.head? = some '/') := by
    cases hsd : s.data with
    | nil => exact absurd hsd hs
    | cons c cs =>
      simp only [List.head?_cons, Option.some.injEq]
      intro hcontra
      exact hsl (hsd ▸ (hcontra ▸ List.mem_cons_self c cs))
  rw [pathPush, if_neg hhead, if_neg (by tauto)]

theorem pathPush_eq_of_no_sep_needed {q s : String}
    (hql : q.data = [] ∨ q.data.getLast? = some '/') (hs : s.data ≠ [])
    (hsl : '/' ∉ s.data) :
    pathPush q s = q ++ s := by
  have hhead : ¬ (s.data.head? = some '/') := by
    cases hsd : s.data with
    | nil => exact absurd hsd hs
    | cons c cs =>
      simp only [List.head?_cons, Option.some.injEq]
      intro hcontra
      exact hsl (hsd ▸ (hcontra ▸ List.mem_cons_self c cs))
  rw [pathPush, if_neg hhead, if_pos hql]

theorem foldl_pathPush_strings (segs : List String) :
    ∀ q : String, q.data ≠ [] → q.data.getLast? ≠ some '/' →
      (∀ s ∈ segs, s.data ≠ [] ∧ '/' ∉ s.data) →
      segs.foldl pathPush q = q ++ mkTailSlash segs := by
  induction segs with
  | nil =>
    intro q _ _ _
    apply String.ext
    simp [mkTailSlash]
  | cons s ss ih =>
    intro q hq hql hall
    obtain ⟨hs, hsl⟩ := hall s (List.mem_cons_self _ _)
    rw [List.foldl_cons, pathPush_eq_of_not_slash_end hq hql hs hsl]
    have hne : (q ++ "/" ++ s).data ≠ [] := by simp [hs]
    have hlast : (q ++ "/" ++ s).data.getLast? ≠ some '/' := by
      rw [String.data_append, List.getLast?_append]
      cases hsd : s.data.getLast? with
      | none => exact absurd (List.getLast?_eq_none_iff.mp hsd) hs
      | some c =>
        have hc : c ∈ s.data := List.mem_of_getLast?_eq_some hsd
        simp only [hsd, Option.or_some]
        intro hcontra
        exact hsl (Option.some.inj hcontra ▸ hc)
    rw [ih (q ++ "/" ++ s) hne hlast (fun x hx => hall x (List.mem_cons_of_mem _ hx))]
    apply String.ext
    simp [mkTailSlash]

theorem foldl_pathPush_strings_sep (segs : List String) (q : String)
    (hql : q.data = [] ∨ q.data.getLast? = some '/')
    (hall : ∀ s ∈ segs, s.data ≠ [] ∧ '/' ∉ s.data) :
    segs.foldl pathPush q = q ++ joinSep "/" segs := by
  cases segs with
  | nil =>
    apply String.ext
    simp [joinSep]
  | cons s ss =>
    obtain ⟨hs, hsl⟩ := hall s (List.mem_cons_self _ _)
    rw [List.foldl_cons, pathPush_eq_of_no_sep_needed hql hs hsl]
    have hne : (q ++ s).data ≠ [] := by simp [hs]
    have hlast : (q ++ s).data.getLast? ≠ some '/' := by
      rw [String.data_append, List.getLast?_append]
      cases hsd : s.data.getLast? with
      | none => exact absurd (List.getLast?_eq_none_iff.mp hsd) hs
      | some c =>
        have hc : c ∈ s.data := List.mem_of_getLast?_eq_some hsd
        simp only [hsd, Option.or_some]
        intro hcontra
        exact hsl (Option.some.inj hcontra ▸ hc)
    rw [foldl_pathPush_strings ss (q ++ s) hne hlast
      (fun x hx => hall x (List.mem_cons_of_mem _ hx))]
    rw [joinSep_slash_eq_mkTailSlash]
    apply String.ext
    simp

/-! ### Lemmas about the drive table -/

theorem findSome?_filterMap {α β γ : Type} (g : α → Option γ) (f : γ → Option β) :
    ∀ l : List α, (l.filterMap g).findSome? f = l.findSome? (fun a => (g a).bind f) := by
  intro l
  induction l with
  | nil => rfl
  | cons a l ih =>
    cases hg : g a with
    | none => simp [List.filterMap_cons, hg, List.findSome?_cons, ih]
    | some c =>
      simp only [List.filterMap_cons, hg, List.findSome?_cons, Option.some_bind]
      cases f c <;> simp [ih]

theorem findSome?_eq_of_first {α β : Type} (f : α → Option β) {b : β} :
    ∀ (l : List α) (i : Nat) (hi : i < l.length),
      (∀ k (hk : k < i), f (l.get ⟨k, Nat.lt_trans hk hi⟩) = none) →
      f (l.get ⟨i, hi⟩) = some b → l.findSome? f = some b := by
  intro l
  induction l with
  | nil => intro i hi; exact absurd hi (by simp)
  | cons x xs ih =>
    intro i hi hnone hsome
    cases i with
    | zero =>
      rw [List.findSome?_cons]
      simp only [List.get] at hsome
      rw [hsome]
    | succ i =>
      have hx : f x = none := hnone 0 (Nat.succ_pos i)
      rw [List.findSome?_cons, hx]
      exact ih i (Nat.lt_of_succ_lt_succ hi)
        (fun k hk => hnone (k + 1) (Nat.succ_lt_succ hk)) hsome

theorem findSome?_finRange_first {n : Nat} {β : Type} (f : Fin n → Option β) {b : β}
    (j : Fin n) (hnone : ∀ k : Fin n, k < j → f k = none) (hsome : f j = some b) :
    (List.finRange n).findSome? f = some b := by
  apply findSome?_eq_of_first f (List.finRange n) j.val
    (by rw [List.length_finRange]; exact j.isLt)
  · intro k hk
    rw [List.get_finRange]
    exact hnone _ (by simpa [Fin.lt_def] using hk)
  · rw [List.get_finRange, Fin.eta]
    exact hsome

theorem index_to_drive_isAlpha : ∀ i : Fin 26, (index_to_drive i).isAlpha = true := by
  decide

theorem index_to_drive_isLower : ∀ i : Fin 26, (index_to_drive i).isLower = true := by
  decide

theorem drive_to_index_index_to_drive :
    ∀ i : Fin 26, drive_to_index (index_to_drive i) = some i.val := by
  decide

theorem get_index_to_drive (dc : DriveCache) (i : Fin 26) :
    dc.get (index_to_drive i) = some (dc.drives i) := by
  rw [DriveCache.get, drive_to_index_index_to_drive i]
  simp [i.isLt]

theorem get_isSome_of_isAlpha (dc : DriveCache) {l : Char} (hl : l.isAlpha = true) :
    ∃ o, dc.get l = some o := by
  rw [DriveCache.get, drive_to_index, if_pos hl]
  exact ⟨_, rfl⟩

theorem isAlpha_of_get_eq_some {dc : DriveCache} {l : Char} {o : Option String}
    (h : dc.get l = some o) : l.isAlpha = true := by
  by_contra hl
  rw [DriveCache.get, drive_to_index, if_neg hl] at h
  exact Option.noConfusion h

theorem mem_iter_of_drives {dc : DriveCache} {i : Fin 26} {r : String}
    (h : dc.drives i = some r) : (index_to_drive i, r) ∈ dc.iter := by
  rw [DriveCache.iter]
  exact List.mem_filterMap.mpr ⟨i, List.mem_finRange i, by rw [h]; rfl⟩

theorem of_mem_iter {dc : DriveCache} {pr : Char × String} (h : pr ∈ dc.iter) :
    ∃ i : Fin 26, dc.drives i = some pr.2 ∧ pr.1 = index_to_drive i := by
  rw [DriveCache.iter] at h
  obtain ⟨i, _, hmap⟩ := List.mem_filterMap.mp h
  obtain ⟨r, hr, hpr⟩ := Option.map_eq_some'.mp hmap
  exact ⟨i, by rw [hr, ← hpr], by rw [← hpr]⟩

theorem stripPrefixComponents_pos {p root : String}
    (h : (components root).isPrefixOf (components p) = true) :
    stripPrefixComponents p root =
      some ((components p).drop (components root).length) := by
  rw [stripPrefixComponents, if_pos h]

theorem stripPrefixComponents_neg {p root : String}
    (h : (components root).isPrefixOf (components p) = false) :
    stripPrefixComponents p root = none := by
  rw [stripPrefixComponents, if_neg (by simp [h])]

theorem stripPrefixComponents_eq_none_iff {p root : String} :
    stripPrefixComponents p root = none ↔
      (components root).isPrefixOf (components p) = false := by
  constructor
  · intro h
    cases hb : (components root).isPrefixOf (components p) with
    | false => rfl
    | true => rw [stripPrefixComponents_pos hb] at h; exact Option.noConfusion h
  · exact stripPrefixComponents_neg

/-- The first-match behaviour of `find_drive_root`: if slot `j` is
populated with a matching directory and every populated earlier slot fails
to match, the scan returns slot `j`'s letter and the remaining components. -/
theorem find_drive_root_of_first (cfg : WineConfig) (p : String) (j : Fin 26)
    (root : String)
    (hj : cfg.drive_cache.drives j = some root)
    (hpre : (components root).isPrefixOf (components p) = true)
    (hfirst : ∀ j' : Fin 26, j' < j → ∀ r', cfg.drive_cache.drives j' = some r' →
      (components r').isPrefixOf (components p) = false) :
    cfg.find_drive_root p =
      Except.ok (String.mk [index_to_drive j, ':'],
        (components p).drop (components root).length) := by
  rw [WineConfig.find_drive_root, DriveCache.iter, findSome?_filterMap]
  have hfind : (List.finRange 26).findSome?
      (fun i => ((cfg.drive_cache.drives i).map fun path => (index_to_drive i, path)).bind
        fun lr => (stripPrefixComponents p lr.2).map fun remaining =>
          (String.mk [lr.1, ':'], remaining)) =
      some (String.mk [index_to_drive j, ':'],
        (components p).drop (components root).length) := by
    apply findSome?_finRange_first _ j
    · intro k hk
      cases hdk : cfg.drive_cache.drives k with
      | none => rfl
      | some r' =>
        rw [Option.map_some', Option.some_bind,
          stripPrefixComponents_neg (hfirst k hk r' hdk)]
        rfl
    · rw [hj, Option.map_some', Option.some_bind, stripPrefixComponents_pos hpre,
        Option.map_some']
  rw [hfind]

/-- Shape of any successful `find_drive_root` result: it comes from some
populated slot whose directory component-prefixes the path. -/
theorem find_drive_root_ok_shape {cfg : WineConfig} {p : String}
    {rr : String × List Component} (h : cfg.find_drive_root p = Except.ok rr) :
    ∃ (j : Fin 26) (root : String), cfg.drive_cache.drives j = some root ∧
      (components root).isPrefixOf (components p) = true ∧
      rr = (String.mk [index_to_drive j, ':'],
        (components p).drop (components root).length) := by
  rw [WineConfig.find_drive_root] at h
  cases hfs : cfg.drive_cache.iter.findSome? (fun lr =>
      (stripPrefixComponents p lr.2).map fun remaining =>
        (String.mk [lr.1, ':'], remaining)) with
  | none => rw [hfs] at h; exact Except.noConfusion h
  | some r =>
    rw [hfs] at h
    obtain ⟨pr, hmem, hf⟩ := List.exists_of_findSome?_eq_some hfs
    obtain ⟨i, hdr, hl⟩ := of_mem_iter hmem
    obtain ⟨rem, hstrip, hpair⟩ := Option.map_eq_some'.mp hf
    cases hpre : (components pr.2).isPrefixOf (components p) with
    | false => rw [stripPrefixComponents_neg hpre] at hstrip; exact Option.noConfusion hstrip
    | true =>
      rw [stripPrefixComponents_pos hpre] at hstrip
      refine ⟨i, pr.2, hdr, hpre, ?_⟩
      rw [← Except.ok.inj h, ← hpair, ← Option.some.inj hstrip, hl]

/-- If some populated slot matches, `find_drive_root` succeeds. -/
theorem find_drive_root_ok_of_exists {cfg : WineConfig} {p : String}
    (h : ∃ (i : Fin 26) (r : String), cfg.drive_cache.drives i = some r ∧
      (components r).isPrefixOf (components p) = true) :
    ∃ rr, cfg.find_drive_root p = Except.ok rr := by
  obtain ⟨i, r, hir, hpre⟩ := h
  rw [WineConfig.find_drive_root]
  cases hfs : cfg.drive_cache.iter.findSome? (fun lr =>
      (stripPrefixComponents p lr.2).map fun remaining =>
        (String.mk [lr.1, ':'], remaining)) with
  | some rr => exact ⟨rr, rfl⟩
  | none =>
    have := List.findSome?_eq_none_iff.mp hfs (index_to_drive i, r) (mem_iter_of_drives hir)
    rw [stripPrefixComponents_pos hpre] at this
    exact Option.noConfusion this

/-- Reduction of `to_native_path_inner` on a well-shaped input with a
mapped letter. -/
theorem to_native_path_inner_mapped (cfg : WineConfig) (l : Char) (rest : List Char)
    (root : String) (hget : cfg.drive_cache.get l = some (some root)) :
    cfg.to_native_path_inner (String.mk (l :: ':' :: rest)) =
      some (Except.ok
        (((splitOnChar '\\' rest).map fun p => String.mk p).foldl pathPush root)) := by
  have hAlpha : l.isAlpha = true := isAlpha_of_get_eq_some hget
  show (if l.isAlpha then
      match cfg.drive_cache.get l with
      | some (some native_root) =>
        some (Except.ok
          (((splitOnChar '\\' rest).map fun p => String.mk p).foldl pathPush native_root))
      | some none => some (Except.error WinePathError.NoDrive)
      | none => none
    else none) = _
  rw [if_pos hAlpha, hget]

/-! ### Claim theorems -/

/-- C2: `find_drive_root` (and hence `to_wine_path`) scans populated slots
in ascending letter order and returns the first slot whose native
directory is an equal-or-ancestor component-prefix of the input path,
together with the remaining suffix.  (The nested-drives instance is the
witness below: with `c` mapped to a directory and `d` to a subdirectory
nested inside it, a path under the nested subdirectory resolves to `c`.) -/
theorem c2_first_match (cfg : WineConfig) (p : String) (j : Fin 26) (root : String)
    (hj : cfg.drive_cache.drives j = some root)
    (hpre : (components root).isPrefixOf (components p) = true)
    (hfirst : ∀ j' : Fin 26, j' < j → ∀ r', cfg.drive_cache.drives j' = some r' →
      (components r').isPrefixOf (components p) = false) :
    cfg.find_drive_root p =
      Except.ok (String.mk [index_to_drive j, ':'],
        (components p).drop (components root).length) :=
  find_drive_root_of_first cfg p j root hj hpre hfirst

theorem c2_first_match_witness :
    cfgNested.find_drive_root "/home/u/.wine/drive_c/nested/x" =
      Except.ok ("c:", [Component.normal "nested", Component.normal "x"]) := by
  have hfirst : ∀ j' : Fin 26, j' < (⟨2, by decide⟩ : Fin 26) → ∀ r',
      cfgNested.drive_cache.drives j' = some r' →
      (components r').isPrefixOf (components "/home/u/.wine/drive_c/nested/x") = false := by
    intro j' hlt r' hr'
    have hv : j'.val < 2 := hlt
    have h2 : cfgNested.drive_cache.drives j' = none := by
      show (if j'.val = 2 then some "/home/u/.wine/drive_c"
        else if j'.val = 3 then some "/home/u/.wine/drive_c/nested" else none) = none
      rw [if_neg (by omega), if_neg (by omega)]
    rw [h2] at hr'
    exact Option.noConfusion hr'
  have h := c2_first_match cfgNested "/home/u/.wine/drive_c/nested/x" ⟨2, by decide⟩
    "/home/u/.wine/drive_c" rfl (by decide) hfirst
  rw [h]
  exact congrArg Except.ok (by decide)

/-- C4: `to_wine_path` returns the `NoDrive` error exactly when no
populated cache slot's native directory is an equal-or-ancestor
component-prefix of the input native path, and `to_native_path` on a
well-shaped input returns the `NoDrive` error exactly when the input's
drive letter has an empty cache slot; both are values of the result type
(`some (Except.error ...)`), not aborts (`none`). -/
theorem c4_no_drive_errors (cfg : WineConfig) :
    (∀ p : String, cfg.to_wine_path_inner p = Except.error WinePathError.NoDrive ↔
      ∀ pr ∈ cfg.drive_cache.iter,
        (components pr.2).isPrefixOf (components p) = false) ∧
    (∀ (l : Char) (rest : List Char), l.isAlpha = true →
      (cfg.to_native_path_inner (String.mk (l :: ':' :: rest)) =
          some (Except.error WinePathError.NoDrive) ↔
        cfg.drive_cache.get l = some none)) := by
  constructor
  · intro p
    rw [WineConfig.to_wine_path_inner, WineConfig.find_drive_root]
    cases hfs : cfg.drive_cache.iter.findSome? (fun lr =>
        (stripPrefixComponents p lr.2).map fun remaining =>
          (String.mk [lr.1, ':'], remaining)) with
    | some r =>
      constructor
      · intro h
        simp [Except.map] at h
      · intro hall
        obtain ⟨pr, hmem, hf⟩ := List.exists_of_findSome?_eq_some hfs
        rw [stripPrefixComponents_neg (hall pr hmem)] at hf
        exact Option.noConfusion hf
    | none =>
      constructor
      · intro _ pr hmem
        have hnone := List.findSome?_eq_none_iff.mp hfs pr hmem
        simp only at hnone
        exact stripPrefixComponents_eq_none_iff.mp (Option.map_eq_none'.mp hnone)
      · intro _
        rfl
  · intro l rest hl
    obtain ⟨o, ho⟩ := get_isSome_of_isAlpha cfg.drive_cache hl
    rw [show cfg.to_native_path_inner (String.mk (l :: ':' :: rest)) =
        (if l.isAlpha then
          match cfg.drive_cache.get l with
          | some (some native_root) =>
            some (Except.ok
              (((splitOnChar '\\' rest).map fun p => String.mk p).foldl pathPush native_root))
          | some none => some (Except.error WinePathError.NoDrive)
          | none => none
        else none) from rfl, if_pos hl, ho]
    cases o with
    | some root => constructor <;> (intro h; simp_all)
    | none => constructor <;> (intro h; rfl)

theorem c4_no_drive_errors_witness :
    cfgC.to_wine_path_inner "/tmp/unrelated" = Except.error WinePathError.NoDrive ∧
      cfgC.to_native_path_inner (String.mk ('q' :: ':' :: "\\foo".data)) =
        some (Except.error WinePathError.NoDrive) :=
  ⟨((c4_no_drive_errors cfgC).1 "/tmp/unrelated").mpr (by decide),
    ((c4_no_drive_errors cfgC).2 'q' "\\foo".data (by decide)).mpr (by decide)⟩

/-- C5 counterexample: in the spec's own nested configuration the native
path that exactly equals drive `d`'s directory converts to `"c:\nested"`
(the earlier letter `c` matches first), which is not `"d:"` and is not a
bare two-character drive prefix, refuting the claim as stated. -/
theorem c5_counterexample :
    cfgNested.to_wine_path_inner "/home/u/.wine/drive_c/nested" = Except.ok "c:\\nested" ∧
      ("c:\\nested" : String) ≠ "d:" ∧ ("c:\\nested" : String).data.length ≠ 2 :=
  ⟨rfl, by decide, by decide⟩

/-- C5 (amended): converting a native path that exactly equals the
first-matching mapped drive's native directory (no earlier-lettered
populated slot matches the path) yields just that drive letter and a
colon, with zero trailing segments and no trailing backslash. -/
theorem c5_exact_match_amended (cfg : WineConfig) (p : String) (j : Fin 26) (root : String)
    (hj : cfg.drive_cache.drives j = some root)
    (hexact : components p = components root)
    (hfirst : ∀ j' : Fin 26, j' < j → ∀ r', cfg.drive_cache.drives j' = some r' →
      (components r').isPrefixOf (components p) = false) :
    cfg.to_wine_path_inner p = Except.ok (String.mk [index_to_drive j, ':']) := by
  rw [WineConfig.to_wine_path_inner,
    find_drive_root_of_first cfg p j root hj
      (by rw [hexact]; exact List.isPrefixOf_iff_prefix.mpr (List.prefix_refl _)) hfirst,
    hexact, List.drop_length]
  rfl

theorem c5_exact_match_witness :
    cfgC.to_wine_path_inner "/pfx/drive_c" =
      Except.ok (String.mk [index_to_drive ⟨2, by decide⟩, ':']) := by
  have hfirst : ∀ j' : Fin 26, j' < (⟨2, by decide⟩ : Fin 26) → ∀ r',
      cfgC.drive_cache.drives j' = some r' →
      (components r').isPrefixOf (components "/pfx/drive_c") = false := by
    intro j' hlt r' hr'
    have hv : j'.val < 2 := hlt
    have h2 : cfgC.drive_cache.drives j' = none := by
      show (if j'.val = 2 then some "/pfx/drive_c" else none) = none
      rw [if_neg (by omega)]
    rw [h2] at hr'
    exact Option.noConfusion hr'
  exact c5_exact_match_amended cfgC "/pfx/drive_c" ⟨2, by decide⟩ "/pfx/drive_c" rfl rfl hfirst

/-- C6: the shape precondition of `to_native_path` (at least two
characters, ASCII letter first, colon second) holds exactly when the
conversion runs without firing the internal assertions: under it the
result is a value (`isSome`), and violating it aborts the process
(`none`, the model of a panic) rather than returning a typed error. -/
theorem c6_shape_precondition (cfg : WineConfig) (s : String) :
    (cfg.to_native_path_inner s).isSome = wine_path_shape_ok s := by
  unfold WineConfig.to_native_path_inner wine_path_shape_ok
  split
  · next l rest heq =>
    by_cases ha : l.isAlpha
    · obtain ⟨o, ho⟩ := get_isSome_of_isAlpha cfg.drive_cache ha
      rw [if_pos ha, ho, ha]
      cases o <;> rfl
    · rw [if_neg ha]
      exact (Bool.eq_false_iff.mpr ha).symm
  · next h => rfl

/-- C7: drive-letter lookup is case-insensitive — for every slot index,
`DriveCache.get` at the uppercase letter (`0x41 + i`) and at the lowercase
letter (`0x61 + i`) reads the same slot of the same cache. -/
theorem c7_case_insensitive (dc : DriveCache) (i : Fin 26) :
    dc.get (Char.ofNat (0x41 + i.val)) = dc.get (Char.ofNat (0x61 + i.val)) := by
  have h : ∀ k : Fin 26, drive_to_index (Char.ofNat (0x41 + k.val)) =
      drive_to_index (Char.ofNat (0x61 + k.val)) := by decide
  rw [DriveCache.get, DriveCache.get, h i]

/-- C10: converting the bare two-character virtual path `"<letter>:"` of a
mapped drive succeeds and returns a path componentwise equal to that
drive's native directory (the empty remainder contributes no components;
at the string level the push of the single empty segment only appends a
separator). -/
theorem c10_bare_drive (cfg : WineConfig) (l : Char) (root : String)
    (hget : cfg.drive_cache.get l = some (some root)) :
    cfg.to_native_path_inner (String.mk [l, ':']) = some (Except.ok (pathPush root "")) ∧
      components (pathPush root "") = components root := by
  constructor
  · exact to_native_path_inner_mapped cfg l [] root hget
  · exact components_pathPush_empty root

theorem c10_bare_drive_witness :
    cfgC.to_native_path_inner (String.mk ['c', ':']) =
        some (Except.ok (pathPush "/pfx/drive_c" "")) ∧
      components (pathPush "/pfx/drive_c" "") = components "/pfx/drive_c" :=
  c10_bare_drive cfgC 'c' "/pfx/drive_c" rfl

theorem map_mk_data (segs : List String) :
    (segs.map String.data).map (fun p => String.mk p) = segs := by
  induction segs with
  | nil => rfl
  | cons s ss ih => simp [ih, mk_data]

/-- C3 counterexample: with `c` mapped to `/pfx/drive_c`, converting the
virtual path `"c:/etc\passwd"` (whose first backslash-separated segment
`"/etc"` is an absolute native path) yields `/etc/passwd`: the absolute
segment replaces the accumulated path, so the result neither starts from
the slot's native directory nor appends each segment as one component. -/
theorem c3_counterexample :
    cfgC.to_native_path_inner "c:/etc\\passwd" = some (Except.ok "/etc/passwd") ∧
      components "/etc/passwd" ≠
        components "/pfx/drive_c" ++ [Component.normal "/etc", Component.normal "passwd"] ∧
      (components "/pfx/drive_c").isPrefixOf (components "/etc/passwd") = false :=
  ⟨rfl, by decide, by decide⟩

/-- C3 (amended): for a virtual path `l:\s1\...\sn` whose drive letter is
mapped, provided each backslash-separated segment is nonempty and
contains no `/`, the result is the slot's native directory extended by
the push of the leading empty segment (which inserts a `/` separator
exactly when the directory is nonempty and does not already end in `/`)
and then the segments joined by `/`, appended textually, in order, left
to right, with `.`/`..` segments passed through uninterpreted.  No
condition on the mapped directory is needed: the statement covers a
drive mapped to `/` (Wine's standard `z:` mapping) and even an empty
slot string. -/
theorem c3_segment_construction_amended (cfg : WineConfig) (l : Char) (root : String)
    (segs : List String)
    (hget : cfg.drive_cache.get l = some (some root))
    (hne : segs ≠ [])
    (hsegs : ∀ s ∈ segs, s.data ≠ [] ∧ '/' ∉ s.data ∧ '\\' ∉ s.data) :
    cfg.to_native_path_inner (String.mk (l :: ':' :: '\\' :: (joinSep "\\" segs).data)) =
      some (Except.ok (pathPush root "" ++ joinSep "/" segs)) := by
  have hsplit : splitOnChar '\\' ('\\' :: (joinSep "\\" segs).data) =
      [] :: segs.map String.data := by
    rw [splitOnChar_cons_self, joinSep_data "\\" '\\' rfl segs,
      splitOnChar_joinCharSep '\\' (segs.map String.data) (by simpa using hne)
        (fun x hx => by
          obtain ⟨s, hs, rfl⟩ := List.mem_map.mp hx
          exact (hsegs s hs).2.2)]
  rw [to_native_path_inner_mapped cfg l ('\\' :: (joinSep "\\" segs).data) root hget,
    hsplit, List.map_cons, map_mk_data, List.foldl_cons,
    show String.mk ([] : List Char) = "" from rfl,
    foldl_pathPush_strings_sep segs (pathPush root "") (pathPush_empty_sep root)
      (fun s hs => ⟨(hsegs s hs).1, (hsegs s hs).2.1⟩)]

theorem c3_segment_witness :
    cfgHome.to_native_path_inner "c:\\Program Files\\CoolApp\\start.exe" =
        some (Except.ok "/home/u/.wine/drive_c/Program Files/CoolApp/start.exe") ∧
      cfgRootZ.to_native_path_inner "z:\\x" = some (Except.ok "/x") := by
  constructor
  · have h := c3_segment_construction_amended cfgHome 'c' "/home/u/.wine/drive_c"
      ["Program Files", "CoolApp", "start.exe"] rfl (by decide) (by decide)
    rw [show (String.mk ('c' :: ':' :: '\\' ::
          (joinSep "\\" (["Program Files", "CoolApp", "start.exe"] : List String)).data)) =
        "c:\\Program Files\\CoolApp\\start.exe" from by decide,
      show (pathPush "/home/u/.wine/drive_c" "" ++
          joinSep "/" (["Program Files", "CoolApp", "start.exe"] : List String)) =
        "/home/u/.wine/drive_c/Program Files/CoolApp/start.exe" from by decide] at h
    exact h
  · have h := c3_segment_construction_amended cfgRootZ 'z' "/" ["x"] rfl (by decide)
      (by decide)
    rw [show (String.mk ('z' :: ':' :: '\\' ::
          (joinSep "\\" (["x"] : List String)).data)) = "z:\\x" from by decide,
      show (pathPush "/" "" ++ joinSep "/" (["x"] : List String)) = "/x" from by decide] at h
    exact h

/-- C8 counterexample: with `c` mapped to `/pfx/drive_c`, running the
example binary with arguments `-u c:\x` prints the native path
`/pfx/drive_c/x` — i.e. `-u` performed the virtual→native conversion —
while the native→virtual conversion the claim assigns to `-u` fails on
that input; moreover the canonicalizer is not applied in this direction
(a canonicalizer that rewrites everything changes nothing). -/
theorem c8_counterexample :
    mainModel cfgC (fun s => s) ["-u", "c:\\x"] = some "/pfx/drive_c/x" ∧
      cfgC.to_wine_path_inner "c:\\x" = Except.error WinePathError.NoDrive ∧
      mainModel cfgC (fun _ => "/zzz") ["-u", "c:\\x"] = some "/pfx/drive_c/x" :=
  ⟨rfl, rfl, rfl⟩

/-- C8 (amended): `-u` selects the virtual→native conversion, `-w` selects
the native→virtual conversion, and virtual→native is the default when the
first argument is not a flag; the input is canonicalized only for the
native→virtual (`-w`) direction. -/
theorem c8_mode_selection_amended (cfg : WineConfig) (canon : String → String) (p : String) :
    mainModel cfg canon ["-u", p] = printedNative cfg p ∧
      mainModel cfg canon ["-w", p] = printedWine cfg (canon p) ∧
      (p ≠ "-u" → p ≠ "-w" → mainModel cfg canon [p] = printedNative cfg p) := by
  refine ⟨rfl, rfl, ?_⟩
  intro hp1 hp2
  have hparse : parseArgs [p] = some (CliAction.ToUnix, p) := by
    rw [parseArgs, if_neg hp1, if_neg hp2]
  rw [mainModel, hparse]

theorem c8_mode_selection_witness :
    mainModel cfgC (fun s => s) ["c:\\x"] = printedNative cfgC "c:\\x" :=
  (c8_mode_selection_amended cfgC (fun s => s) "c:\\x").2.2 (by decide) (by decide)

/-- C9: every successful result of `to_wine_path` begins with a lowercase
ASCII drive letter followed by a colon — the letter is regenerated from
the slot index by `index_to_drive`, which only produces lowercase
letters. -/
theorem c9_lowercase_drive (cfg : WineConfig) (p s : String)
    (h : cfg.to_wine_path_inner p = Except.ok s) :
    ∃ (c : Char) (rest : List Char), s.data = c :: ':' :: rest ∧ c.isLower = true := by
  rw [WineConfig.to_wine_path_inner] at h
  cases hf : cfg.find_drive_root p with
  | error e => rw [hf] at h; exact Except.noConfusion h
  | ok rr =>
    rw [hf] at h
    have hs : s = stringify_path rr.1 rr.2 := (Except.ok.inj h).symm
    obtain ⟨j, root, hj, hpre, hrr⟩ := find_drive_root_ok_shape hf
    obtain ⟨t, ht⟩ := joinSep_cons "\\" rr.1 (rr.2.map componentText)
    refine ⟨index_to_drive j, t.data, ?_, index_to_drive_isLower j⟩
    rw [hs, stringify_path, ht, show rr.1 = String.mk [index_to_drive j, ':'] from by
      rw [hrr], String.data_append, data_mk]
    rfl

theorem c9_lowercase_drive_witness :
    ∃ (c : Char) (rest : List Char),
      ("c:\\x" : String).data = c :: ':' :: rest ∧ c.isLower = true :=
  c9_lowercase_drive cfgC "/pfx/drive_c/x" "c:\\x" rfl

theorem components_eq_root_aux {s : String}
    (h : (components s).head? = some Component.rootDir) :
    components s = Component.rootDir :: componentsAux (splitOnChar '/' s.data) := by
  by_cases hr : s.data.head? = some '/'
  · exact components_of_rooted hr
  · exfalso
    simp only [components] at h
    rw [if_neg hr] at h
    cases hsp : splitOnChar '/' s.data with
    | nil => rw [hsp] at h; simp at h
    | cons piece ps =>
      rw [hsp] at h
      rw [show (match piece :: ps with
          | [] => ([] : List Component)
          | p :: ps => if p = ['.'] then Component.curDir :: componentsAux ps
            else componentsAux (p :: ps)) =
          if piece = ['.'] then Component.curDir :: componentsAux ps
            else componentsAux (piece :: ps) from rfl] at h
      by_cases hp : piece = ['.']
      · rw [if_pos hp] at h
        simp at h
      · rw [if_neg hp] at h
        cases haux : componentsAux (piece :: ps) with
        | nil => rw [haux] at h; simp at h
        | cons c cs =>
          rw [haux] at h
          have hc : c = Component.rootDir := Option.some.inj h
          rw [hc] at haux
          exact rootDir_not_mem_componentsAux
            (by rw [haux]; exact List.mem_cons_self _ _)

theorem map_normal_componentText {t : List Component}
    (h : ∀ c ∈ t, ∃ u, c = Component.normal u) :
    (t.map componentText).map Component.normal = t := by
  induction t with
  | nil => rfl
  | cons c cs ih =>
    obtain ⟨u, rfl⟩ := h c (List.mem_cons_self _ _)
    rw [List.map_cons, List.map_cons,
      ih (fun x hx => h x (List.mem_cons_of_mem _ hx))]
    rfl

/-- C1 counterexample: with `c` mapped to `/pfx/drive_c`, the native path
`/pfx/drive_c/a\b` — strictly under the mapped directory, with no `.`/`..`
segments and entirely Unicode text — round-trips to `/pfx/drive_c/a/b`,
a different path: the backslash inside the file name is reinterpreted as
a segment separator on the way back. -/
theorem c1_counterexample :
    cfgC.to_wine_path_inner "/pfx/drive_c/a\\b" = Except.ok "c:\\a\\b" ∧
      cfgC.to_native_path_inner "c:\\a\\b" = some (Except.ok "/pfx/drive_c/a/b") ∧
      components "/pfx/drive_c/a/b" ≠ components "/pfx/drive_c/a\\b" ∧
      "/pfx/drive_c/a/b" ≠ "/pfx/drive_c/a\\b" ∧
      Component.curDir ∉ components "/pfx/drive_c/a\\b" ∧
      Component.parentDir ∉ components "/pfx/drive_c/a\\b" ∧
      (components "/pfx/drive_c").isPrefixOf (components "/pfx/drive_c/a\\b") = true ∧
      components "/pfx/drive_c" ≠ components "/pfx/drive_c/a\\b" :=
  ⟨rfl, rfl, by decide, by decide, by decide, by decide, by decide, by decide⟩

/-- C1 (amended): for every native path `p` strictly under some mapped
drive's native directory (populated slots holding absolute directories,
per the cache invariant), containing no `.`/`..` components and — as the
counterexample forces — no backslash inside any segment, converting `p`
with `to_wine_path` and converting the result back with `to_native_path`
yields a path componentwise equal to `p` (Rust `Path` equality). -/
theorem c1_round_trip_amended (cfg : WineConfig) (p : String)
    (habs : ∀ (i : Fin 26) (r : String), cfg.drive_cache.drives i = some r →
      r.data.head? = some '/')
    (hmapped : ∃ (i : Fin 26) (r : String), cfg.drive_cache.drives i = some r ∧
      (components r).isPrefixOf (components p) = true ∧ components r ≠ components p)
    (hnodot : Component.curDir ∉ components p ∧ Component.parentDir ∉ components p)
    (hnobs : ∀ c ∈ components p, '\\' ∉ (componentText c).data) :
    ∃ s q, cfg.to_wine_path_inner p = Except.ok s ∧
      cfg.to_native_path_inner s = some (Except.ok q) ∧
      components q = components p := by
  obtain ⟨rr, hfr⟩ := find_drive_root_ok_of_exists
    (by obtain ⟨i, r, h1, h2, _⟩ := hmapped; exact ⟨i, r, h1, h2⟩)
  obtain ⟨j, root, hj, hpre, hrrr⟩ := find_drive_root_ok_shape hfr
  have hroothead : root.data.head? = some '/' := habs j root hj
  have hrootne : root.data ≠ [] := by
    intro hc
    rw [hc] at hroothead
    exact Option.noConfusion hroothead
  have hrootcomp : components root =
      Component.rootDir :: componentsAux (splitOnChar '/' root.data) :=
    components_of_rooted hroothead
  obtain ⟨t, ht⟩ := List.isPrefixOf_iff_prefix.mp hpre
  have hrem : (components p).drop (components root).length = t := by
    rw [← ht, List.drop_left]
  have hrr2 : rr = (String.mk [index_to_drive j, ':'], t) := by rw [hrrr, hrem]
  have hphead : (components p).head? = some Component.rootDir := by
    rw [← ht, hrootcomp]
    rfl
  have hpcomp := components_eq_root_aux hphead
  have htaux : ∀ c ∈ t, c ∈ componentsAux (splitOnChar '/' p.data) := by
    intro c hc
    have haux : componentsAux (splitOnChar '/' root.data) ++ t =
        componentsAux (splitOnChar '/' p.data) := by
      have h1 : (Component.rootDir :: componentsAux (splitOnChar '/' root.data)) ++ t =
          Component.rootDir :: componentsAux (splitOnChar '/' p.data) := by
        rw [← hrootcomp, ht, hpcomp]
      simpa using h1
    rw [← haux]
    exact List.mem_append_right _ hc
  have htp : ∀ c ∈ t, c ∈ components p := by
    intro c hc
    rw [hpcomp]
    exact List.mem_cons_of_mem _ (htaux c hc)
  have hclean : ∀ c ∈ t, ∃ u : String, c = Component.normal u ∧ u.data ≠ [] ∧
      '/' ∉ u.data ∧ u.data ≠ ['.'] ∧ u.data ≠ ['.', '.'] ∧ '\\' ∉ u.data := by
    intro c hc
    rcases mem_componentsAux (htaux c hc) with hpar | ⟨piece, hmem, hcn, hne, hdot, hdots⟩
    · exact absurd (hpar ▸ htp c hc) hnodot.2
    · refine ⟨String.mk piece, hcn, hne, not_mem_of_mem_splitOnChar hmem, ?_, ?_, ?_⟩
      · intro hc'; exact hdot hc'
      · intro hc'; exact hdots hc'
      · have := hnobs c (htp c hc)
        rw [hcn] at this
        exact this
  have hget' : cfg.drive_cache.get (index_to_drive j) = some (some root) := by
    rw [get_index_to_drive, hj]
  have hsegsne : ∀ s ∈ t.map componentText, s.data ≠ [] ∧ '/' ∉ s.data ∧
      s.data ≠ ['.'] ∧ s.data ≠ ['.', '.'] ∧ '\\' ∉ s.data := by
    intro s hs
    obtain ⟨c, hc, rfl⟩ := List.mem_map.mp hs
    obtain ⟨u, rfl, h1, h2, h3, h4, h5⟩ := hclean c hc
    exact ⟨h1, h2, h3, h4, h5⟩
  have hwine : cfg.to_wine_path_inner p =
      Except.ok (stringify_path (String.mk [index_to_drive j, ':']) t) := by
    rw [WineConfig.to_wine_path_inner, hfr, hrr2]
    rfl
  cases t with
  | nil =>
    refine ⟨_, pathPush root "", hwine, ?_, ?_⟩
    · rw [show stringify_path (String.mk [index_to_drive j, ':']) ([] : List Component) =
          String.mk (index_to_drive j :: ':' :: []) from rfl,
        to_native_path_inner_mapped cfg (index_to_drive j) [] root hget']
      rfl
    · rw [components_pathPush_empty, ← ht, List.append_nil]
  | cons c0 t' =>
    have hjoin : stringify_path (String.mk [index_to_drive j, ':']) (c0 :: t') =
        String.mk (index_to_drive j :: ':' :: '\\' ::
          joinCharSep '\\' (((c0 :: t').map componentText).map String.data)) := by
      apply String.ext
      rw [stringify_path, joinSep_data "\\" '\\' rfl]
      rfl
    refine ⟨_, ((c0 :: t').map componentText).foldl pathPush (pathPush root ""),
      hwine, ?_, ?_⟩
    · rw [hjoin, to_native_path_inner_mapped cfg (index_to_drive j) _ root hget']
      have hsplit2 : splitOnChar '\\'
          ('\\' :: joinCharSep '\\' (((c0 :: t').map componentText).map String.data)) =
          [] :: ((c0 :: t').map componentText).map String.data := by
        rw [splitOnChar_cons_self,
          splitOnChar_joinCharSep '\\' _ (by simp) (fun x hx => by
            obtain ⟨s, hs, rfl⟩ := List.mem_map.mp hx
            exact (hsegsne s hs).2.2.2.2)]
      rw [hsplit2, List.map_cons, map_mk_data, List.foldl_cons]
    · have h2 := foldl_pathPush_components ((c0 :: t').map componentText)
        (pathPush root "") (pathPush_empty_data_ne_nil hrootne)
        (fun s hs => ⟨(hsegsne s hs).1, (hsegsne s hs).2.1,
          (hsegsne s hs).2.2.1, (hsegsne s hs).2.2.2.1⟩)
      rw [h2.1, components_pathPush_empty,
        map_normal_componentText (fun c hc => by
          obtain ⟨u, hu, _⟩ := hclean c hc
          exact ⟨u, hu⟩), ht]

theorem c1_round_trip_witness :
    ∃ s q, cfgC.to_wine_path_inner "/pfx/drive_c/a/b" = Except.ok s ∧
      cfgC.to_native_path_inner s = some (Except.ok q) ∧
      components q = components "/pfx/drive_c/a/b" := by
  apply c1_round_trip_amended cfgC "/pfx/drive_c/a/b"
  · intro i r h
    by_cases h2 : i.val = 2
    · have hr : cfgC.drive_cache.drives i = some "/pfx/drive_c" := by
        show (if i.val = 2 then some "/pfx/drive_c" else none) = _
        rw [if_pos h2]
      rw [hr] at h
      rw [← Option.some.inj h]
      rfl
    · have hr : cfgC.drive_cache.drives i = none := by
        show (if i.val = 2 then some "/pfx/drive_c" else none) = _
        rw [if_neg h2]
      rw [hr] at h
      exact Option.noConfusion h
  · exact ⟨⟨2, by decide⟩, "/pfx/drive_c", rfl, by decide, by decide⟩
  · exact ⟨by decide, by decide⟩
  · decide
